import Mathlib

/-!
Shallow embedding of the `deduplicator` crate of the addresses-importer
repository (file `src/deduplicator/src/deduplicator.rs`), together with
proofs about the collision-resolution pipeline, the insertion filter and
the writer threads.

Modelling conventions:
* Rust `f64` ranks are modelled as `Option ℚ`: `none` plays the role of a
  NaN value (incomparable under `partial_cmp`), `some q` a finite value.
* Rust `i64` identifiers and hashes are modelled as `Int`.
* The similarity predicate `is_duplicate` (crate `dedupe`, a black box for
  the spec) is a parameter `S : Address → Address → Bool`.
* The hashing function `hash_address` is a parameter `Address → List Int`.
* Fallible database inserts are modelled by an outcome datatype.
-/

/-- The `Address` record of `importer_tools`, as described by the data model:
coordinates plus optional string fields. -/
structure Address where
  lat : ℚ
  lon : ℚ
  number : Option String
  street : Option String
  unit : Option String
  city : Option String
  district : Option String
  region : Option String
  postcode : Option String
deriving DecidableEq

/-- An address with every optional field set to `none`; a base point used to
build concrete test addresses. -/
def blankAddress : Address :=
  ⟨0, 0, none, none, none, none, none, none, none⟩

/-- The `HashIterItem` tuples yielded by the sorted hash scan:
`(hash, id, rank, address)`. -/
structure HashIterItem where
  hash : Int
  id : Int
  rank : Option ℚ
  address : Address
deriving DecidableEq

/-- Model of `f64::partial_cmp` on rank values: `none` (NaN) is incomparable
with everything, finite values compare numerically. -/
def rankPartialCmp : Option ℚ → Option ℚ → Option Ordering
  | some a, some b =>
      some (if a < b then Ordering.lt else if a = b then Ordering.eq else Ordering.gt)
  | _, _ => none

/-- Model of `i64::cmp`. -/
def intCmp (a b : Int) : Ordering :=
  if a < b then Ordering.lt else if a = b then Ordering.eq else Ordering.gt

/-- Model of `(rank, id).partial_cmp(&(rank, id))`: lexicographic, and `none`
as soon as the rank comparison is undefined. -/
def pairPartialCmp (r₁ : Option ℚ) (i₁ : Int) (r₂ : Option ℚ) (i₂ : Int) :
    Option Ordering :=
  match rankPartialCmp r₁ r₂ with
  | none => none
  | some Ordering.eq => some (intCmp i₁ i₂)
  | some o => some o

/-- The comparator passed to `sort_unstable_by` in `compute_duplicates`
(lines 93–98): compare `(rank, id)` tuples, fall back to comparing ids when
the tuples are incomparable, then reverse the result. -/
def itemCmp (x y : HashIterItem) : Ordering :=
  ((pairPartialCmp x.rank x.id y.rank y.id).getD (intCmp x.id y.id)).swap

/-- The (not necessarily transitive) order induced by `itemCmp`: `x` may be
placed before `y` by the sort. -/
def itemLE (x y : HashIterItem) : Prop := itemCmp x y ≠ Ordering.gt

instance : DecidableRel itemLE := fun x y => by
  unfold itemLE; infer_instance

/-- Model of `pack.sort_unstable_by(itemCmp)`: a sort of the pack consistent
with the comparator. -/
def sortPack (pack : List HashIterItem) : List HashIterItem :=
  List.insertionSort itemLE pack

/-- The worker loop of `compute_duplicates` (lines 102–116): walk the sorted
pack, compare each item against every already-kept item, emit its id for
deletion if it is similar to one of them and append it to the kept list
otherwise. Returns the final kept list and the emitted ids in order. -/
def dedupeLoop (S : Address → Address → Bool) :
    List HashIterItem → List HashIterItem → List Int →
    List HashIterItem × List Int
  | [], kept, dels => (kept, dels)
  | item :: rest, kept, dels =>
      if kept.any fun k => S item.address k.address then
        dedupeLoop S rest kept (dels ++ [item.id])
      else
        dedupeLoop S rest (kept ++ [item]) dels

/-- Outcome of a worker on one pack: kept items, ids emitted for deletion,
and whether the performance warning was printed. -/
structure PackOutcome where
  kept : List HashIterItem
  deleted : List Int
  warned : Bool
deriving DecidableEq

/-- One worker iteration of `compute_duplicates` (lines 81–117): skip packs
larger than 5000 with a warning, otherwise sort the pack, keep its first
element and run the deduplication loop on the rest. -/
def resolvePack (S : Address → Address → Bool) (pack : List HashIterItem) :
    PackOutcome :=
  if pack.length > 5000 then
    { kept := [], deleted := [], warned := true }
  else
    match sortPack pack with
    | [] => { kept := [], deleted := [], warned := false }
    | first :: rest =>
        let res := dedupeLoop S rest [first] []
        { kept := res.1, deleted := res.2, warned := false }

/-- Modelled from the spec (§4.4, Phase B steps 2–4), for the refinement
claim: sort the pack by `(rank, id)` descending, initialize
`kept = [pack[0]]`, and for each subsequent item `x` in order emit `x.id`
when `any(S(x.address, k.address) for k in kept)` and append `x` to `kept`
otherwise. Stated with a fold, following the spec's wording. -/
def specWorkerResolve (S : Address → Address → Bool)
    (pack : List HashIterItem) : List HashIterItem × List Int :=
  match sortPack pack with
  | [] => ([], [])
  | p0 :: rest =>
      rest.foldl
        (fun st x =>
          if st.1.any fun k => S x.address k.address then
            (st.1, st.2 ++ [x.id])
          else
            (st.1 ++ [x], st.2))
        ([p0], [])

/-- A row of the `addresses` table joined with its rows of the `hashes`
table: id, rank, address fields, and the set of hashes stored for it. -/
structure AddressRecord where
  id : Int
  rank : Option ℚ
  address : Address
  hashes : List Int
deriving DecidableEq

/-- The `HashIterItem` produced for a stored record and one of its hashes. -/
def itemOf (h : Int) (r : AddressRecord) : HashIterItem :=
  { hash := h, id := r.id, rank := r.rank, address := r.address }

/-- The pack formed for hash value `h`: the scan of `hashes` sorted by hash
groups together exactly the records holding `h` (modelled directly as a
filter over the store; contiguity of the sorted scan is what makes the
group-by of lines 150–164 yield this set). -/
def packFor (store : List AddressRecord) (h : Int) : List HashIterItem :=
  (store.filter fun r => h ∈ r.hashes).map (itemOf h)

/-- The distinct hash values present in the store: the possible pack keys of
the group-by over the sorted scan. -/
def allHashes (store : List AddressRecord) : List Int :=
  ((store.map AddressRecord.hashes).flatten).dedup

/-- The ids collected into `to_delete` by `compute_duplicates`: packs of
fewer than two elements are discarded (line 164), remaining packs go through
a worker. -/
def compute_duplicates (S : Address → Address → Bool)
    (store : List AddressRecord) : List Int :=
  (allHashes store).flatMap fun h =>
    if 2 ≤ (packFor store h).length then
      (resolvePack S (packFor store h)).deleted
    else
      []

/-- Modelled from the spec: `apply_deletions` of the store adapter (§4.1,
the body of `DbHashes::apply_addresses_to_delete`, which is not part of the
analysed sources) deletes from `addresses` every row whose id appears in
`to_delete`. -/
def apply_deletions (store : List AddressRecord) (dels : List Int) :
    List AddressRecord :=
  store.filter fun r => r.id ∉ dels

/-- One full round of collision resolution: `compute_duplicates` followed by
`apply_and_clean` (which applies the deletions). -/
def runOnce (S : Address → Address → Bool) (store : List AddressRecord) :
    List AddressRecord :=
  apply_deletions store (compute_duplicates S store)

/-- The body of `DbInserter::insert` (lines 335–344): return without sending
when the house number is absent or the sentinel, forward the address to the
pipeline channel otherwise. `none` models an early return, `some addr` the
value sent on `addr_sender`. -/
def DbInserter.insert (addr : Address) : Option Address :=
  if (addr.number.map fun num => num == "S/N").getD true then
    none
  else
    some addr

/-- Result of one insert attempt against the store, as classified by
`is_constraint_violation_error`. -/
inductive InsertOutcome where
  | ok
  | constraintViolation
  | otherError
deriving DecidableEq

/-- Truth of "this outcome is an error that is not a constraint violation",
the condition under which the code logs. -/
def InsertOutcome.isLoggedError : InsertOutcome → Bool
  | InsertOutcome.otherError => true
  | _ => false

/-- Observable behaviour of the deletion writer: ids on which
`insert_to_delete` was attempted (in order), ids whose failure was logged,
and how many transactions were opened. -/
structure WriterRun where
  attempted : List Int
  logged : List Int
  transactions : Nat
deriving DecidableEq

/-- The deletion-writer thread of `compute_duplicates` (lines 129–145): one
transaction is opened, the whole channel is drained into a set (modelled by
`List.dedup` of the drained ids), then each id of the set is inserted;
non-constraint errors are logged and the loop continues. `outcome` gives the
store's response for each id. -/
def writerRun (outcome : Int → InsertOutcome) (drained : List Int) :
    WriterRun :=
  let toDelete := drained.dedup
  toDelete.foldl
    (fun acc id =>
      if (outcome id).isLoggedError then
        { acc with attempted := acc.attempted ++ [id],
                   logged := acc.logged ++ [id] }
      else
        { acc with attempted := acc.attempted ++ [id] })
    { attempted := [], logged := [], transactions := 1 }

/-- Observable behaviour of a hashing worker of `DbInserter::new`: the
triples sent on `hash_sender` and the number of unhashable-address warnings
printed. -/
structure HashWorkerRun where
  sent : List (Address × Option ℚ × List Int)
  warnings : Nat
deriving DecidableEq

/-- The hashing-worker loop of `DbInserter::new` (lines 264–277): filter the
incoming addresses, compute rank and hashes for each accepted one, warn when
the hash set is empty, and send the triple downstream in every case. -/
def hashWorkerRun (filt : Address → Bool) (ranking : Address → Option ℚ)
    (hashFn : Address → List Int) (addrs : List Address) : HashWorkerRun :=
  (addrs.filter filt).foldl
    (fun acc address =>
      let hashes := hashFn address
      { sent := acc.sent ++ [(address, ranking address, hashes)],
        warnings := acc.warnings + (if hashes.isEmpty then 1 else 0) })
    { sent := [], warnings := 0 }

/-- The pairwise relation maintained on the kept list: a later kept item was
compared against every earlier one and found dissimilar. -/
def keptRel (S : Address → Address → Bool) (x y : HashIterItem) : Prop :=
  S y.address x.address = false

/-- The lexicographically-strictly-greater relation on `(rank, id)` used by
the survivor claims: only defined (true) on comparable, non-NaN ranks. -/
def strictAbove (s d : HashIterItem) : Prop :=
  match s.rank, d.rank with
  | some a, some b => b < a ∨ (b = a ∧ d.id < s.id)
  | _, _ => False

/-! ### Concrete test data -/

/-- A symmetric street-based similarity table realizing the spec's
non-transitivity scenario: streets `a` and `b` are similar, `b` and `c` are
similar, `a` and `c` are not. -/
def simABC (x y : Address) : Bool :=
  (x.street == some "a" && y.street == some "b") ||
  (x.street == some "b" && y.street == some "a") ||
  (x.street == some "b" && y.street == some "c") ||
  (x.street == some "c" && y.street == some "b")

def addrA : Address := { blankAddress with street := some "a" }

def addrB : Address := { blankAddress with street := some "b" }

def addrC : Address := { blankAddress with street := some "c" }

/-- Scenario 3 of the spec: ranks 3 > 2 > 1 on one shared hash. -/
def itemA : HashIterItem := { hash := 0, id := 1, rank := some 3, address := addrA }

def itemB : HashIterItem := { hash := 0, id := 2, rank := some 2, address := addrB }

def itemC : HashIterItem := { hash := 0, id := 3, rank := some 1, address := addrC }

def packABC : List HashIterItem := [itemA, itemB, itemC]

/-- An address with no street but a valid house number. -/
def addrNoStreet : Address := { blankAddress with number := some "10" }

/-- An address carrying the sentinel house number. -/
def addrSN : Address := { blankAddress with number := some "S/N" }

/-- A pathological pack larger than the 5000-element bound. -/
def giantPack : List HashIterItem := List.replicate 5001 itemA

/-- A concrete store response used to instantiate the writer theorem. -/
def outcomeW : Int → InsertOutcome := fun i =>
  if i = 4 then InsertOutcome.constraintViolation
  else if i = 7 then InsertOutcome.otherError
  else InsertOutcome.ok

def itemNaN1 : HashIterItem := { hash := 0, id := 5, rank := none, address := addrA }

def itemNaN2 : HashIterItem := { hash := 0, id := 3, rank := none, address := addrB }

def streetEq (x y : Address) : Bool := decide (x.street = y.street)

def recW1 : AddressRecord :=
  { id := 1, rank := some 1,
    address := { blankAddress with street := some "dup" }, hashes := [1] }

def recW2 : AddressRecord :=
  { id := 2, rank := some 2,
    address := { blankAddress with street := some "dup" }, hashes := [2] }

def recW3 : AddressRecord :=
  { id := 3, rank := some 1,
    address := { blankAddress with street := some "z" }, hashes := [3] }

def recW4 : AddressRecord :=
  { id := 4, rank := some 2,
    address := { blankAddress with street := some "w" }, hashes := [3] }

def storeW : List AddressRecord := [recW1, recW2, recW3, recW4]

def recX : AddressRecord :=
  { id := 1, rank := some 1, address := addrA, hashes := [1] }

def recY : AddressRecord :=
  { id := 2, rank := some 2, address := addrB, hashes := [1, 2] }

def recZ : AddressRecord :=
  { id := 3, rank := some 3, address := addrC, hashes := [2] }

def storeXYZ : List AddressRecord := [recX, recY, recZ]

def addrsE : List Address := [addrA]

def recE : AddressRecord :=
  { id := 10, rank := some 0, address := addrA, hashes := [] }

def storeE : List AddressRecord := [recE]

/-- A similarity that identifies everything: the degenerate-address case
behind pathological packs. -/
def Sconst : Address → Address → Bool := fun _ _ => true

/-- Record number `i` of the pathological store: ids and ranks strictly
decrease as `i` grows; all 5001 records share hash 1 and the last one also
carries hash 2. -/
def bigRec (i : ℕ) : AddressRecord :=
  { id := 5001 - (i : Int),
    rank := some (5001 - (i : ℚ)),
    address := blankAddress,
    hashes := if i = 5000 then [1, 2] else [1] }

/-- A higher-ranked record sharing hash 2 with `bigRec 5000` only. -/
def wRec : AddressRecord :=
  { id := 9000, rank := some 9000, address := blankAddress, hashes := [2] }

def bigStore : List AddressRecord := (List.range 5001).map bigRec ++ [wRec]

/-! ### Structural lemmas about the deduplication loop -/

theorem dedupeLoop_kept_mono (S : Address → Address → Bool)
    (todo kept : List HashIterItem) (dels : List Int) :
    ∃ extra, (dedupeLoop S todo kept dels).1 = kept ++ extra ∧
      ∀ x ∈ extra, x ∈ todo := by
  induction todo generalizing kept dels with
  | nil => exact ⟨[], by simp [dedupeLoop]⟩
  | cons item rest ih =>
      by_cases hdup : (kept.any fun k => S item.address k.address) = true
      · obtain ⟨extra, h1, h2⟩ := ih kept (dels ++ [item.id])
        exact ⟨extra, by simp [dedupeLoop, hdup, h1],
          fun x hx => List.mem_cons_of_mem _ (h2 x hx)⟩
      · obtain ⟨extra, h1, h2⟩ := ih (kept ++ [item]) dels
        refine ⟨item :: extra, ?_, ?_⟩
        · simp [dedupeLoop, hdup, h1]
        · intro x hx
          rcases List.mem_cons.mp hx with h | h
          · exact h ▸ List.mem_cons_self _ _
          · exact List.mem_cons_of_mem _ (h2 x h)

theorem dedupeLoop_dels_mono (S : Address → Address → Bool)
    (todo kept : List HashIterItem) (dels : List Int) :
    ∃ ds, (dedupeLoop S todo kept dels).2 = dels ++ ds ∧
      ∀ i ∈ ds, ∃ x ∈ todo, x.id = i := by
  induction todo generalizing kept dels with
  | nil => exact ⟨[], by simp [dedupeLoop]⟩
  | cons item rest ih =>
      by_cases hdup : (kept.any fun k => S item.address k.address) = true
      · obtain ⟨ds, h1, h2⟩ := ih kept (dels ++ [item.id])
        refine ⟨item.id :: ds, ?_, ?_⟩
        · simp [dedupeLoop, hdup, h1]
        · intro i hi
          rcases List.mem_cons.mp hi with h | h
          · exact ⟨item, List.mem_cons_self _ _, h.symm⟩
          · obtain ⟨x, hx, hxi⟩ := h2 i h
            exact ⟨x, List.mem_cons_of_mem _ hx, hxi⟩
      · obtain ⟨ds, h1, h2⟩ := ih (kept ++ [item]) dels
        refine ⟨ds, by simp [dedupeLoop, hdup, h1], ?_⟩
        intro i hi
        obtain ⟨x, hx, hxi⟩ := h2 i hi
        exact ⟨x, List.mem_cons_of_mem _ hx, hxi⟩

theorem dedupeLoop_mem_or (S : Address → Address → Bool)
    (todo kept : List HashIterItem) (dels : List Int) :
    ∀ x ∈ todo, x ∈ (dedupeLoop S todo kept dels).1 ∨
      x.id ∈ (dedupeLoop S todo kept dels).2 := by
  induction todo generalizing kept dels with
  | nil => intro x hx; cases hx
  | cons item rest ih =>
      intro x hx
      by_cases hdup : (kept.any fun k => S item.address k.address) = true
      · rcases List.mem_cons.mp hx with h | h
        · subst h
          obtain ⟨ds, h1, _⟩ :=
            dedupeLoop_dels_mono S rest kept (dels ++ [x.id])
          have hmem : x.id ∈ (dedupeLoop S rest kept (dels ++ [x.id])).2 := by
            rw [h1]; simp
          right
          simpa [dedupeLoop, hdup] using hmem
        · simpa [dedupeLoop, hdup] using ih kept (dels ++ [item.id]) x h
      · rcases List.mem_cons.mp hx with h | h
        · subst h
          obtain ⟨extra, h1, _⟩ :=
            dedupeLoop_kept_mono S rest (kept ++ [x]) dels
          have hmem : x ∈ (dedupeLoop S rest (kept ++ [x]) dels).1 := by
            rw [h1]; simp
          left
          simpa [dedupeLoop, hdup] using hmem
        · simpa [dedupeLoop, hdup] using ih (kept ++ [item]) dels x h

theorem dedupeLoop_kept_pairwise (S : Address → Address → Bool)
    (todo kept : List HashIterItem) (dels : List Int)
    (hk : kept.Pairwise (keptRel S)) :
    (dedupeLoop S todo kept dels).1.Pairwise (keptRel S) := by
  induction todo generalizing kept dels with
  | nil => simpa [dedupeLoop] using hk
  | cons item rest ih =>
      by_cases hdup : (kept.any fun k => S item.address k.address) = true
      · simpa [dedupeLoop, hdup] using ih kept (dels ++ [item.id]) hk
      · have hall : ∀ k ∈ kept, S item.address k.address = false := by
          intro k hkmem
          have := fun h => hdup (List.any_eq_true.mpr ⟨k, hkmem, h⟩)
          exact Bool.eq_false_iff.mpr this
        have hk' : (kept ++ [item]).Pairwise (keptRel S) := by
          refine List.pairwise_append.mpr ⟨hk, List.pairwise_singleton _ _, ?_⟩
          intro x hxk y hy
          rcases List.mem_singleton.mp hy with rfl
          exact hall x hxk
        simpa [dedupeLoop, hdup] using ih (kept ++ [item]) dels hk'

theorem dedupeLoop_deleted_reason (S : Address → Address → Bool)
    (G : HashIterItem → HashIterItem → Prop)
    (todo kept : List HashIterItem) (dels : List Int)
    (hinv : ∀ k ∈ kept, ∀ t ∈ todo, G k t)
    (hsorted : todo.Pairwise G) :
    ∀ i ∈ (dedupeLoop S todo kept dels).2, i ∈ dels ∨
      ∃ x s, x ∈ todo ∧ x.id = i ∧ s ∈ (dedupeLoop S todo kept dels).1 ∧
        S x.address s.address = true ∧ G s x := by
  induction todo generalizing kept dels with
  | nil => intro i hi; exact Or.inl (by simpa [dedupeLoop] using hi)
  | cons item rest ih =>
      intro i hi
      by_cases hdup : (kept.any fun k => S item.address k.address) = true
      · obtain ⟨k, hk, hSk⟩ := List.any_eq_true.mp hdup
        have hi' : i ∈ (dedupeLoop S rest kept (dels ++ [item.id])).2 := by
          simpa [dedupeLoop, hdup] using hi
        have hinv' : ∀ k' ∈ kept, ∀ t ∈ rest, G k' t := fun k' hk' t ht =>
          hinv k' hk' t (List.mem_cons_of_mem _ ht)
        rcases ih kept (dels ++ [item.id]) hinv' hsorted.of_cons i hi' with
          h | ⟨x, s, hx, hxi, hs, hSx, hG⟩
        · rcases List.mem_append.mp h with h' | h'
          · exact Or.inl h'
          · rcases List.mem_singleton.mp h' with rfl
            refine Or.inr ⟨item, k, List.mem_cons_self _ _, rfl, ?_, hSk, ?_⟩
            · obtain ⟨extra, he, _⟩ :=
                dedupeLoop_kept_mono S rest kept (dels ++ [item.id])
              have : k ∈ (dedupeLoop S rest kept (dels ++ [item.id])).1 := by
                rw [he]; exact List.mem_append_left _ hk
              simpa [dedupeLoop, hdup] using this
            · exact hinv k hk item (List.mem_cons_self _ _)
        · refine Or.inr ⟨x, s, List.mem_cons_of_mem _ hx, hxi, ?_, hSx, hG⟩
          simpa [dedupeLoop, hdup] using hs
      · have hi' : i ∈ (dedupeLoop S rest (kept ++ [item]) dels).2 := by
          simpa [dedupeLoop, hdup] using hi
        have hinv' : ∀ k' ∈ kept ++ [item], ∀ t ∈ rest, G k' t := by
          intro k' hk' t ht
          rcases List.mem_append.mp hk' with h | h
          · exact hinv k' h t (List.mem_cons_of_mem _ ht)
          · rcases List.mem_singleton.mp h with rfl
            exact (List.pairwise_cons.mp hsorted).1 t ht
        rcases ih (kept ++ [item]) dels hinv' hsorted.of_cons i hi' with
          h | ⟨x, s, hx, hxi, hs, hSx, hG⟩
        · exact Or.inl h
        · refine Or.inr ⟨x, s, List.mem_cons_of_mem _ hx, hxi, ?_, hSx, hG⟩
          simpa [dedupeLoop, hdup] using hs

theorem dedupeLoop_no_del (S : Address → Address → Bool)
    (todo kept : List HashIterItem) (dels : List Int)
    (hcross : ∀ t ∈ todo, ∀ k ∈ kept, S t.address k.address = false)
    (hpair : todo.Pairwise fun a b => S b.address a.address = false) :
    (dedupeLoop S todo kept dels).2 = dels := by
  induction todo generalizing kept dels with
  | nil => simp [dedupeLoop]
  | cons item rest ih =>
      have hdup : (kept.any fun k => S item.address k.address) = false := by
        rw [List.any_eq_false]
        intro k hk
        simp [hcross item (List.mem_cons_self _ _) k hk]
      have hcross' : ∀ t ∈ rest, ∀ k ∈ kept ++ [item],
          S t.address k.address = false := by
        intro t ht k hk
        rcases List.mem_append.mp hk with h | h
        · exact hcross t (List.mem_cons_of_mem _ ht) k h
        · rcases List.mem_singleton.mp h with rfl
          exact (List.pairwise_cons.mp hpair).1 t ht
      simpa [dedupeLoop, hdup] using
        ih (kept ++ [item]) dels hcross' hpair.of_cons

theorem dedupeLoop_all_dup (S : Address → Address → Bool)
    (todo kept : List HashIterItem) (dels : List Int)
    (hdup : ∀ t ∈ todo, ∃ k ∈ kept, S t.address k.address = true) :
    (dedupeLoop S todo kept dels).2 = dels ++ todo.map HashIterItem.id := by
  induction todo generalizing dels with
  | nil => simp [dedupeLoop]
  | cons item rest ih =>
      obtain ⟨k, hk, hS⟩ := hdup item (List.mem_cons_self _ _)
      have hany : (kept.any fun k => S item.address k.address) = true :=
        List.any_eq_true.mpr ⟨k, hk, hS⟩
      have hrest := ih (dels ++ [item.id])
        (fun t ht => hdup t (List.mem_cons_of_mem _ ht))
      simp only [dedupeLoop, hany, if_pos, hrest]
      simp

theorem dedupeLoop_eq_foldl (S : Address → Address → Bool)
    (todo kept : List HashIterItem) (dels : List Int) :
    dedupeLoop S todo kept dels =
      todo.foldl
        (fun st x =>
          if st.1.any fun k => S x.address k.address then
            (st.1, st.2 ++ [x.id])
          else
            (st.1 ++ [x], st.2))
        (kept, dels) := by
  induction todo generalizing kept dels with
  | nil => simp [dedupeLoop]
  | cons item rest ih =>
      by_cases hdup : (kept.any fun k => S item.address k.address) = true
      · have h1 : dedupeLoop S (item :: rest) kept dels =
            dedupeLoop S rest kept (dels ++ [item.id]) := by
          simp [dedupeLoop, hdup]
        rw [h1, ih, List.foldl_cons, if_pos hdup]
      · have h1 : dedupeLoop S (item :: rest) kept dels =
            dedupeLoop S rest (kept ++ [item]) dels := by
          simp [dedupeLoop, hdup]
        rw [h1, ih, List.foldl_cons, if_neg hdup]

/-! ### Lemmas about sorting and pack resolution -/

theorem sortPack_perm (pack : List HashIterItem) :
    List.Perm (sortPack pack) pack :=
  List.perm_insertionSort itemLE pack

theorem mem_sortPack {x : HashIterItem} {pack : List HashIterItem} :
    x ∈ sortPack pack ↔ x ∈ pack :=
  (sortPack_perm pack).mem_iff

theorem length_sortPack (pack : List HashIterItem) :
    (sortPack pack).length = pack.length :=
  (sortPack_perm pack).length_eq

theorem resolvePack_eq_of_gt (S : Address → Address → Bool)
    (pack : List HashIterItem) (h : 5000 < pack.length) :
    resolvePack S pack = { kept := [], deleted := [], warned := true } := by
  unfold resolvePack
  rw [if_pos (by omega)]

theorem resolvePack_eq_of_nil (S : Address → Address → Bool)
    (pack : List HashIterItem) (h : pack.length ≤ 5000)
    (heq : sortPack pack = []) :
    resolvePack S pack = { kept := [], deleted := [], warned := false } := by
  unfold resolvePack
  rw [if_neg (by omega), heq]

theorem resolvePack_eq_of_cons (S : Address → Address → Bool)
    (pack : List HashIterItem) (h : pack.length ≤ 5000)
    (first : HashIterItem) (rest : List HashIterItem)
    (heq : sortPack pack = first :: rest) :
    resolvePack S pack =
      { kept := (dedupeLoop S rest [first] []).1,
        deleted := (dedupeLoop S rest [first] []).2, warned := false } := by
  unfold resolvePack
  rw [if_neg (by omega), heq]

theorem resolvePack_kept_sub (S : Address → Address → Bool)
    (pack : List HashIterItem) :
    ∀ x ∈ (resolvePack S pack).kept, x ∈ pack := by
  intro x hx
  by_cases h5 : 5000 < pack.length
  · rw [resolvePack_eq_of_gt S pack h5] at hx
    cases hx
  · cases heq : sortPack pack with
    | nil =>
        rw [resolvePack_eq_of_nil S pack (by omega) heq] at hx
        cases hx
    | cons first rest =>
        rw [resolvePack_eq_of_cons S pack (by omega) first rest heq] at hx
        obtain ⟨extra, he, hsub⟩ := dedupeLoop_kept_mono S rest [first] []
        rw [he] at hx
        have hx' : x = first ∨ x ∈ rest := by
          rcases List.mem_append.mp hx with h | h
          · exact Or.inl (List.mem_singleton.mp h)
          · exact Or.inr (hsub x h)
        have : x ∈ sortPack pack := by
          rw [heq]
          rcases hx' with rfl | h
          · exact List.mem_cons_self _ _
          · exact List.mem_cons_of_mem _ h
        exact mem_sortPack.mp this

theorem resolvePack_mem_or (S : Address → Address → Bool)
    (pack : List HashIterItem) (h2 : 2 ≤ pack.length)
    (h5 : pack.length ≤ 5000) :
    ∀ x ∈ pack, x ∈ (resolvePack S pack).kept ∨
      x.id ∈ (resolvePack S pack).deleted := by
  intro x hx
  cases heq : sortPack pack with
  | nil =>
      have := length_sortPack pack
      rw [heq] at this
      simp at this
      omega
  | cons first rest =>
      rw [resolvePack_eq_of_cons S pack h5 first rest heq]
      have hx' : x ∈ first :: rest := by
        rw [← heq]; exact mem_sortPack.mpr hx
      rcases List.mem_cons.mp hx' with rfl | h
      · left
        obtain ⟨extra, he, _⟩ := dedupeLoop_kept_mono S rest [x] []
        rw [he]
        simp
      · exact dedupeLoop_mem_or S rest [first] [] x h

theorem resolvePack_kept_pairwise (S : Address → Address → Bool)
    (pack : List HashIterItem) :
    (resolvePack S pack).kept.Pairwise (keptRel S) := by
  by_cases h5 : 5000 < pack.length
  · rw [resolvePack_eq_of_gt S pack h5]
    exact List.Pairwise.nil
  · cases heq : sortPack pack with
    | nil =>
        rw [resolvePack_eq_of_nil S pack (by omega) heq]
        exact List.Pairwise.nil
    | cons first rest =>
        rw [resolvePack_eq_of_cons S pack (by omega) first rest heq]
        exact dedupeLoop_kept_pairwise S rest [first] []
          (List.pairwise_singleton _ _)

theorem resolvePack_deleted_sub (S : Address → Address → Bool)
    (pack : List HashIterItem) :
    ∀ i ∈ (resolvePack S pack).deleted, ∃ x ∈ pack, x.id = i := by
  intro i hi
  by_cases h5 : 5000 < pack.length
  · rw [resolvePack_eq_of_gt S pack h5] at hi
    cases hi
  · cases heq : sortPack pack with
    | nil =>
        rw [resolvePack_eq_of_nil S pack (by omega) heq] at hi
        cases hi
    | cons first rest =>
        rw [resolvePack_eq_of_cons S pack (by omega) first rest heq] at hi
        obtain ⟨ds, hd, hsub⟩ := dedupeLoop_dels_mono S rest [first] []
        rw [hd] at hi
        simp only [List.nil_append] at hi
        obtain ⟨x, hx, hxi⟩ := hsub i hi
        refine ⟨x, ?_, hxi⟩
        exact mem_sortPack.mp (heq ▸ List.mem_cons_of_mem _ hx)

theorem resolvePack_no_del (S : Address → Address → Bool)
    (pack : List HashIterItem) (hnd : pack.Nodup)
    (hmut : ∀ x ∈ pack, ∀ y ∈ pack, x ≠ y → S x.address y.address = false) :
    (resolvePack S pack).deleted = [] := by
  by_cases h5 : 5000 < pack.length
  · rw [resolvePack_eq_of_gt S pack h5]
  · cases heq : sortPack pack with
    | nil => rw [resolvePack_eq_of_nil S pack (by omega) heq]
    | cons first rest =>
        rw [resolvePack_eq_of_cons S pack (by omega) first rest heq]
        have hndSorted : (first :: rest).Nodup := by
          rw [← heq]
          exact ((sortPack_perm pack).nodup_iff).mpr hnd
        have hmemFirst : first ∈ pack :=
          mem_sortPack.mp (heq ▸ List.mem_cons_self _ _)
        have hmemRest : ∀ t ∈ rest, t ∈ pack := fun t ht =>
          mem_sortPack.mp (heq ▸ List.mem_cons_of_mem _ ht)
        refine dedupeLoop_no_del S rest [first] [] ?_ ?_
        · intro t ht k hk
          rcases List.mem_singleton.mp hk with rfl
          refine hmut t (hmemRest t ht) k hmemFirst ?_
          intro hEq
          exact (List.nodup_cons.mp hndSorted).1 (hEq ▸ ht)
        · have : rest.Pairwise (· ≠ ·) := (List.nodup_cons.mp hndSorted).2
          refine this.imp_of_mem ?_
          intro a b ha hb hab
          exact hmut b (hmemRest b hb) a (hmemRest a ha) (Ne.symm hab)

/-! ### Lemmas about the store-level model -/

theorem mem_packFor {store : List AddressRecord} {h : Int}
    {x : HashIterItem} :
    x ∈ packFor store h ↔ ∃ r ∈ store, h ∈ r.hashes ∧ x = itemOf h r := by
  simp only [packFor, List.mem_map, List.mem_filter, decide_eq_true_eq]
  constructor
  · rintro ⟨r, ⟨hr, hh⟩, rfl⟩
    exact ⟨r, hr, hh, rfl⟩
  · rintro ⟨r, hr, hh, rfl⟩
    exact ⟨r, ⟨hr, hh⟩, rfl⟩

theorem itemOf_mem_packFor {store : List AddressRecord} {h : Int}
    {r : AddressRecord} (hr : r ∈ store) (hh : h ∈ r.hashes) :
    itemOf h r ∈ packFor store h :=
  mem_packFor.mpr ⟨r, hr, hh, rfl⟩

theorem packFor_ids_nodup (store : List AddressRecord) (h : Int)
    (hids : (store.map AddressRecord.id).Nodup) :
    ((packFor store h).map HashIterItem.id).Nodup := by
  unfold packFor
  rw [List.map_map]
  have hsub : ((store.filter fun r => h ∈ r.hashes).map
      (HashIterItem.id ∘ itemOf h)).Sublist (store.map AddressRecord.id) := by
    have : (HashIterItem.id ∘ itemOf h) = AddressRecord.id := rfl
    rw [this]
    exact (List.filter_sublist store).map AddressRecord.id
  exact hids.sublist hsub

theorem packFor_length_le (store : List AddressRecord) (h : Int) :
    (packFor store h).length ≤ store.length := by
  unfold packFor
  rw [List.length_map]
  exact (List.filter_sublist store).length_le

theorem mem_allHashes {store : List AddressRecord} {h : Int} :
    h ∈ allHashes store ↔ ∃ r ∈ store, h ∈ r.hashes := by
  simp only [allHashes, List.mem_dedup, List.mem_flatten, List.mem_map]
  constructor
  · rintro ⟨l, ⟨r, hr, rfl⟩, hh⟩
    exact ⟨r, hr, hh⟩
  · rintro ⟨r, hr, hh⟩
    exact ⟨r.hashes, ⟨r, hr, rfl⟩, hh⟩

theorem mem_compute_duplicates {S : Address → Address → Bool}
    {store : List AddressRecord} {i : Int} :
    i ∈ compute_duplicates S store ↔
      ∃ h, h ∈ allHashes store ∧ 2 ≤ (packFor store h).length ∧
        i ∈ (resolvePack S (packFor store h)).deleted := by
  unfold compute_duplicates
  rw [List.mem_flatMap]
  constructor
  · rintro ⟨h, hh, hi⟩
    by_cases h2 : 2 ≤ (packFor store h).length
    · rw [if_pos h2] at hi
      exact ⟨h, hh, h2, hi⟩
    · rw [if_neg h2] at hi
      cases hi
  · rintro ⟨h, hh, h2, hi⟩
    exact ⟨h, hh, by rw [if_pos h2]; exact hi⟩

theorem mem_apply_deletions {store : List AddressRecord} {dels : List Int}
    {r : AddressRecord} :
    r ∈ apply_deletions store dels ↔ r ∈ store ∧ r.id ∉ dels := by
  simp [apply_deletions, List.mem_filter]

theorem id_inj_of_nodup {store : List AddressRecord}
    (hids : (store.map AddressRecord.id).Nodup)
    {a b : AddressRecord} (ha : a ∈ store) (hb : b ∈ store)
    (hid : a.id = b.id) : a = b :=
  List.inj_on_of_nodup_map hids ha hb hid

theorem compute_duplicates_from_store {S : Address → Address → Bool}
    {store : List AddressRecord} {i : Int}
    (hi : i ∈ compute_duplicates S store) :
    ∃ r ∈ store, r.id = i ∧ r.hashes ≠ [] := by
  obtain ⟨h, _, _, hdel⟩ := mem_compute_duplicates.mp hi
  obtain ⟨x, hx, hxi⟩ := resolvePack_deleted_sub S (packFor store h) i hdel
  obtain ⟨r, hr, hh, rfl⟩ := mem_packFor.mp hx
  exact ⟨r, hr, hxi, List.ne_nil_of_mem hh⟩

/-! ### Lemmas about the pack comparator -/

theorem intCmp_swap (a b : Int) : intCmp b a = (intCmp a b).swap := by
  unfold intCmp
  rcases lt_trichotomy a b with h | h | h
  · rw [if_neg (show ¬b < a by omega), if_neg (show ¬b = a by omega),
      if_pos h]
    rfl
  · rw [if_neg (show ¬b < a by omega), if_pos (show b = a by omega),
      if_neg (show ¬a < b by omega), if_pos h]
    rfl
  · rw [if_pos h, if_neg (show ¬a < b by omega),
      if_neg (show ¬a = b by omega)]
    rfl

theorem rankPartialCmp_swap (a b : Option ℚ) :
    rankPartialCmp b a = (rankPartialCmp a b).map Ordering.swap := by
  match a, b with
  | none, none => rfl
  | none, some _ => rfl
  | some _, none => rfl
  | some x, some y =>
      simp only [rankPartialCmp]
      rcases lt_trichotomy x y with h | h | h
      · rw [if_neg (show ¬y < x from asymm h),
          if_neg (show ¬y = x from ne_of_gt h), if_pos h]
        rfl
      · rw [if_neg (show ¬y < x by rw [h]; exact lt_irrefl y),
          if_pos h.symm, if_neg (show ¬x < y by rw [h]; exact lt_irrefl y),
          if_pos h]
        rfl
      · rw [if_pos h, if_neg (show ¬x < y from asymm h),
          if_neg (show ¬x = y from ne_of_gt h)]
        rfl

theorem pairPartialCmp_swap (r₁ : Option ℚ) (i₁ : Int) (r₂ : Option ℚ)
    (i₂ : Int) :
    pairPartialCmp r₂ i₂ r₁ i₁ =
      (pairPartialCmp r₁ i₁ r₂ i₂).map Ordering.swap := by
  unfold pairPartialCmp
  rw [rankPartialCmp_swap]
  cases hro : rankPartialCmp r₁ r₂ with
  | none => rfl
  | some o =>
      cases o with
      | lt => rfl
      | eq =>
          show some (intCmp i₂ i₁) = some ((intCmp i₁ i₂).swap)
          rw [intCmp_swap]
      | gt => rfl

theorem itemCmp_swap (x y : HashIterItem) :
    itemCmp y x = (itemCmp x y).swap := by
  unfold itemCmp
  rw [pairPartialCmp_swap, intCmp_swap]
  cases pairPartialCmp x.rank x.id y.rank y.id with
  | none => rfl
  | some o => rfl

theorem itemLE_total (x y : HashIterItem) : itemLE x y ∨ itemLE y x := by
  unfold itemLE
  rw [itemCmp_swap x y]
  cases itemCmp x y with
  | lt => exact Or.inl (by decide)
  | eq => exact Or.inl (by decide)
  | gt => exact Or.inr (by decide)

theorem pairPartialCmp_none_iff (r₁ : Option ℚ) (i₁ : Int) (r₂ : Option ℚ)
    (i₂ : Int) :
    pairPartialCmp r₁ i₁ r₂ i₂ = none ↔ r₁ = none ∨ r₂ = none := by
  match r₁, r₂ with
  | none, none => simp [pairPartialCmp, rankPartialCmp]
  | none, some _ => simp [pairPartialCmp, rankPartialCmp]
  | some _, none => simp [pairPartialCmp, rankPartialCmp]
  | some a, some b =>
      simp only [pairPartialCmp, rankPartialCmp]
      constructor
      · intro h
        split at h <;> simp_all
      · intro h
        rcases h with h | h <;> cases h

theorem itemCmp_of_none (x y : HashIterItem)
    (h : pairPartialCmp x.rank x.id y.rank y.id = none) :
    itemCmp x y = (intCmp x.id y.id).swap := by
  unfold itemCmp
  rw [h]
  rfl

theorem pairPartialCmp_some (a b : ℚ) (i₁ i₂ : Int) :
    pairPartialCmp (some a) i₁ (some b) i₂ =
      some (if a < b then Ordering.lt
            else if a = b then intCmp i₁ i₂ else Ordering.gt) := by
  unfold pairPartialCmp
  simp only [rankPartialCmp]
  rcases lt_trichotomy a b with h | h | h
  · rw [if_pos h, if_pos h]
  · subst h
    rw [if_neg (lt_irrefl a), if_neg (lt_irrefl a), if_pos rfl, if_pos rfl]
  · rw [if_neg (asymm h), if_neg (ne_of_gt h), if_neg (asymm h),
      if_neg (ne_of_gt h)]

theorem itemCmp_of_some {x y : HashIterItem} {a b : ℚ}
    (hx : x.rank = some a) (hy : y.rank = some b) :
    itemCmp x y =
      (if a < b then Ordering.lt
       else if a = b then intCmp x.id y.id else Ordering.gt).swap := by
  unfold itemCmp
  rw [hx, hy, pairPartialCmp_some]
  rfl

theorem itemLE_some_iff {x y : HashIterItem} {a b : ℚ}
    (hx : x.rank = some a) (hy : y.rank = some b) :
    itemLE x y ↔ (b < a ∨ (a = b ∧ y.id ≤ x.id)) := by
  unfold itemLE
  rw [itemCmp_of_some hx hy]
  rcases lt_trichotomy a b with h | h | h
  · rw [if_pos h]
    constructor
    · intro hc
      exact absurd rfl hc
    · intro hc
      rcases hc with hc | ⟨hc, _⟩
      · exact absurd hc (asymm h)
      · exact absurd hc (ne_of_lt h)
  · subst h
    rw [if_neg (lt_irrefl a), if_pos rfl]
    unfold intCmp
    rcases lt_trichotomy x.id y.id with hid | hid | hid
    · rw [if_pos hid]
      constructor
      · intro hc
        exact absurd rfl hc
      · intro hc
        rcases hc with hc | ⟨_, hc⟩
        · exact absurd hc (lt_irrefl a)
        · omega
    · rw [if_neg (show ¬x.id < y.id by omega), if_pos hid]
      exact iff_of_true (by decide) (Or.inr ⟨rfl, by omega⟩)
    · rw [if_neg (show ¬x.id < y.id by omega),
        if_neg (show ¬x.id = y.id by omega)]
      exact iff_of_true (by decide) (Or.inr ⟨rfl, by omega⟩)
  · rw [if_neg (asymm h), if_neg (ne_of_gt h)]
    exact iff_of_true (by decide) (Or.inl h)

theorem itemLE_trans_of_some {x y z : HashIterItem}
    (hx : x.rank.isSome) (hy : y.rank.isSome) (hz : z.rank.isSome)
    (hxy : itemLE x y) (hyz : itemLE y z) : itemLE x z := by
  obtain ⟨a, ha⟩ := Option.isSome_iff_exists.mp hx
  obtain ⟨b, hb⟩ := Option.isSome_iff_exists.mp hy
  obtain ⟨c, hc⟩ := Option.isSome_iff_exists.mp hz
  rw [itemLE_some_iff ha hb] at hxy
  rw [itemLE_some_iff hb hc] at hyz
  rw [itemLE_some_iff ha hc]
  rcases hxy with h1 | ⟨h1, h1'⟩ <;> rcases hyz with h2 | ⟨h2, h2'⟩
  · exact Or.inl (h2.trans h1)
  · exact Or.inl (lt_of_eq_of_lt h2.symm h1)
  · exact Or.inl (lt_of_lt_of_eq h2 h1.symm)
  · exact Or.inr ⟨h1.trans h2, by omega⟩

theorem strictAbove_of_itemLE {s d : HashIterItem}
    (hs : s.rank.isSome) (hd : d.rank.isSome)
    (hle : itemLE s d) (hne : s.id ≠ d.id) : strictAbove s d := by
  obtain ⟨a, ha⟩ := Option.isSome_iff_exists.mp hs
  obtain ⟨b, hb⟩ := Option.isSome_iff_exists.mp hd
  rw [itemLE_some_iff ha hb] at hle
  unfold strictAbove
  rw [ha, hb]
  rcases hle with h | ⟨h, h'⟩
  · exact Or.inl h
  · exact Or.inr ⟨h.symm, by omega⟩

/-! ### Sortedness of insertion sort under local totality and transitivity -/

theorem pairwise_orderedInsert_of {α : Type} (r : α → α → Prop)
    [DecidableRel r] (a : α) (l : List α)
    (htot : ∀ b ∈ l, r a b ∨ r b a)
    (htrans : ∀ b ∈ l, ∀ c ∈ l, r a b → r b c → r a c)
    (hl : l.Pairwise r) : (List.orderedInsert r a l).Pairwise r := by
  induction l with
  | nil => simp [List.orderedInsert]
  | cons b t ih =>
      rw [List.orderedInsert]
      by_cases hab : r a b
      · rw [if_pos hab]
        refine List.pairwise_cons.mpr ⟨?_, hl⟩
        intro y hy
        rcases List.mem_cons.mp hy with rfl | hyt
        · exact hab
        · exact htrans b (List.mem_cons_self _ _) y (List.mem_cons_of_mem _ hyt)
            hab ((List.pairwise_cons.mp hl).1 y hyt)
      · rw [if_neg hab]
        refine List.pairwise_cons.mpr ⟨?_, ?_⟩
        · intro y hy
          rcases (List.mem_orderedInsert r).mp hy with rfl | hyt
          · rcases htot b (List.mem_cons_self _ _) with h | h
            · exact absurd h hab
            · exact h
          · exact (List.pairwise_cons.mp hl).1 y hyt
        · exact ih (fun c hc => htot c (List.mem_cons_of_mem _ hc))
            (fun c hc d hd => htrans c (List.mem_cons_of_mem _ hc) d
              (List.mem_cons_of_mem _ hd))
            (List.pairwise_cons.mp hl).2

theorem pairwise_insertionSort_of {α : Type} (r : α → α → Prop)
    [DecidableRel r] (l : List α)
    (htot : ∀ a ∈ l, ∀ b ∈ l, r a b ∨ r b a)
    (htrans : ∀ a ∈ l, ∀ b ∈ l, ∀ c ∈ l, r a b → r b c → r a c) :
    (List.insertionSort r l).Pairwise r := by
  induction l with
  | nil => simp
  | cons a t ih =>
      rw [List.insertionSort]
      have hperm := List.perm_insertionSort r t
      refine pairwise_orderedInsert_of r a (List.insertionSort r t) ?_ ?_ ?_
      · intro b hb
        exact htot a (List.mem_cons_self _ _) b
          (List.mem_cons_of_mem _ (hperm.mem_iff.mp hb))
      · intro b hb c hc hab hbc
        exact htrans a (List.mem_cons_self _ _) b
          (List.mem_cons_of_mem _ (hperm.mem_iff.mp hb)) c
          (List.mem_cons_of_mem _ (hperm.mem_iff.mp hc)) hab hbc
      · exact ih
          (fun x hx y hy => htot x (List.mem_cons_of_mem _ hx) y
            (List.mem_cons_of_mem _ hy))
          (fun x hx y hy z hz => htrans x (List.mem_cons_of_mem _ hx) y
            (List.mem_cons_of_mem _ hy) z (List.mem_cons_of_mem _ hz))

theorem sortPack_pairwise_of_some (pack : List HashIterItem)
    (hranks : ∀ x ∈ pack, x.rank.isSome) :
    (sortPack pack).Pairwise itemLE :=
  pairwise_insertionSort_of itemLE pack
    (fun a _ b _ => itemLE_total a b)
    (fun a ha b hb c hc => itemLE_trans_of_some (hranks a ha) (hranks b hb)
      (hranks c hc))

/-! ### Characterization of the writer and hashing-worker loops -/

theorem writerRun_foldl (outcome : Int → InsertOutcome) (l : List Int)
    (init : WriterRun) :
    l.foldl
      (fun acc id =>
        if (outcome id).isLoggedError then
          { acc with attempted := acc.attempted ++ [id],
                     logged := acc.logged ++ [id] }
        else
          { acc with attempted := acc.attempted ++ [id] })
      init =
    { attempted := init.attempted ++ l,
      logged := init.logged ++ l.filter fun i => (outcome i).isLoggedError,
      transactions := init.transactions } := by
  induction l generalizing init with
  | nil => simp
  | cons i t ih =>
      by_cases h : (outcome i).isLoggedError = true
      · rw [List.foldl_cons, if_pos h, ih]
        simp [h]
      · rw [List.foldl_cons, if_neg h, ih]
        simp [h]

theorem writerRun_eq (outcome : Int → InsertOutcome) (ids : List Int) :
    writerRun outcome ids =
      { attempted := ids.dedup,
        logged := ids.dedup.filter fun i => (outcome i).isLoggedError,
        transactions := 1 } := by
  unfold writerRun
  rw [writerRun_foldl]
  simp

theorem hashWorkerRun_foldl (ranking : Address → Option ℚ)
    (hashFn : Address → List Int) (l : List Address) (init : HashWorkerRun) :
    l.foldl
      (fun acc address =>
        { sent := acc.sent ++ [(address, ranking address, hashFn address)],
          warnings :=
            acc.warnings + (if (hashFn address).isEmpty then 1 else 0) })
      init =
    { sent := init.sent ++ l.map fun a => (a, ranking a, hashFn a),
      warnings := init.warnings + l.countP fun a => (hashFn a).isEmpty } := by
  induction l generalizing init with
  | nil => simp
  | cons a t ih =>
      rw [List.foldl_cons, ih]
      by_cases h : (hashFn a).isEmpty = true
      · simp [h, List.countP_cons, add_comm, add_assoc, add_left_comm]
      · simp [h, List.countP_cons]

theorem hashWorkerRun_eq (filt : Address → Bool)
    (ranking : Address → Option ℚ) (hashFn : Address → List Int)
    (addrs : List Address) :
    hashWorkerRun filt ranking hashFn addrs =
      { sent := (addrs.filter filt).map fun a => (a, ranking a, hashFn a),
        warnings := (addrs.filter filt).countP fun a => (hashFn a).isEmpty } := by
  unfold hashWorkerRun
  have := hashWorkerRun_foldl ranking hashFn (addrs.filter filt)
    { sent := [], warnings := 0 }
  simp only [List.nil_append, Nat.zero_add] at this
  have harg :
      (fun (acc : HashWorkerRun) address =>
        { sent := acc.sent ++ [(address, ranking address, hashFn address)],
          warnings :=
            acc.warnings + (if (hashFn address).isEmpty then 1 else 0) :
          HashWorkerRun }) =
      (fun (acc : HashWorkerRun) address =>
        let hashes := hashFn address
        { sent := acc.sent ++ [(address, ranking address, hashes)],
          warnings := acc.warnings + (if hashes.isEmpty then 1 else 0) }) :=
    rfl
  rw [← harg, this]

/-! ### Helper characterization of the insertion filter -/

theorem insert_eq_none_iff (a : Address) :
    DbInserter.insert a = none ↔
      a.number = none ∨ a.number = some "S/N" := by
  unfold DbInserter.insert
  cases hn : a.number with
  | none => simp
  | some n =>
      by_cases h : n = "S/N"
      · subst h
        simp
      · simp [h]

theorem insert_eq_some (a : Address) (h1 : a.number ≠ none)
    (h2 : a.number ≠ some "S/N") : DbInserter.insert a = some a := by
  unfold DbInserter.insert
  cases hn : a.number with
  | none => exact absurd hn h1
  | some n =>
      have : ¬n = "S/N" := by
        intro h
        exact h2 (by rw [hn, h])
      simp [this]

/-! ### Claim theorems -/

/-- C1: for every pack of size at least 2 and at most 5000 processed by a
collision-resolution worker, the worker sorts the pack in descending
`(rank, id)` order, keeps the first item, and emits each subsequent item for
deletion exactly when it is similar to an already-kept item, appending it to
the kept list otherwise (stated as a refinement of the spec-worded loop);
in the three-address scenario with ranks 3 > 2 > 1 and `S(A,B)`, `S(B,C)`
but not `S(A,C)`, exactly `B` is deleted and `A` and `C` survive. -/
theorem worker_pack_resolution_refines_spec :
    (∀ (S : Address → Address → Bool) (pack : List HashIterItem),
        2 ≤ pack.length → pack.length ≤ 5000 →
        resolvePack S pack =
          { kept := (specWorkerResolve S pack).1,
            deleted := (specWorkerResolve S pack).2,
            warned := false }) ∧
      (resolvePack simABC packABC).deleted = [itemB.id] ∧
      (resolvePack simABC packABC).kept = [itemA, itemC] := by
  refine ⟨?_, by decide, by decide⟩
  intro S pack h2 h5
  unfold specWorkerResolve
  cases heq : sortPack pack with
  | nil =>
      exfalso
      have := length_sortPack pack
      rw [heq] at this
      simp at this
      omega
  | cons first rest =>
      rw [resolvePack_eq_of_cons S pack h5 first rest heq,
        dedupeLoop_eq_foldl]

theorem worker_pack_resolution_refines_spec_witness :
    2 ≤ packABC.length ∧ packABC.length ≤ 5000 ∧
      resolvePack simABC packABC =
        { kept := (specWorkerResolve simABC packABC).1,
          deleted := (specWorkerResolve simABC packABC).2,
          warned := false } :=
  ⟨by decide, by decide,
    worker_pack_resolution_refines_spec.1 simABC packABC (by decide)
      (by decide)⟩

/-- C4 (counterexample): an address whose street is missing but whose house
number is valid is forwarded by `DbInserter::insert`: the street field is
never examined by the insertion filter, refuting the claim that empty-street
records are rejected there. -/
theorem insert_passes_empty_street_counterexample :
    addrNoStreet.street = none ∧
      DbInserter.insert addrNoStreet = some addrNoStreet := by
  decide

/-- C4 (amended): `DbInserter::insert` never examines the street field; an
address with a missing or empty street but a present house number distinct
from the sentinel is forwarded to the pipeline rather than rejected. -/
theorem insert_accepts_empty_street (a : Address)
    (hstreet : a.street = none ∨ a.street = some "")
    (hnum : a.number ≠ none) (hsn : a.number ≠ some "S/N") :
    DbInserter.insert a = some a :=
  insert_eq_some a hnum hsn

theorem insert_accepts_empty_street_witness :
    addrNoStreet.street = none ∧
      DbInserter.insert addrNoStreet = some addrNoStreet :=
  ⟨by decide,
    insert_accepts_empty_street addrNoStreet (Or.inl (by decide))
      (by decide) (by decide)⟩

/-- C5: `DbInserter::insert` returns without sending exactly when the house
number is missing or the sentinel `"S/N"`; every other address is sent into
the pipeline unchanged. -/
theorem insert_sentinel_characterization (a : Address) :
    (DbInserter.insert a = none ↔
      a.number = none ∨ a.number = some "S/N") ∧
    (a.number ≠ none → a.number ≠ some "S/N" →
      DbInserter.insert a = some a) :=
  ⟨insert_eq_none_iff a, insert_eq_some a⟩

theorem insert_sentinel_characterization_witness :
    ((DbInserter.insert addrSN = none ↔
        addrSN.number = none ∨ addrSN.number = some "S/N") ∧
      (addrSN.number ≠ none → addrSN.number ≠ some "S/N" →
        DbInserter.insert addrSN = some addrSN)) ∧
    DbInserter.insert addrSN = none :=
  ⟨insert_sentinel_characterization addrSN, by decide⟩

/-- C6: a worker receiving a pack of more than 5000 elements prints the
performance warning and does not process the pack: it keeps nothing, emits
no deletion id for any member, and mutates no address. -/
theorem giant_pack_skipped (S : Address → Address → Bool)
    (pack : List HashIterItem) (h : 5000 < pack.length) :
    resolvePack S pack = { kept := [], deleted := [], warned := true } :=
  resolvePack_eq_of_gt S pack h

theorem giant_pack_skipped_witness :
    5000 < giantPack.length ∧
      resolvePack simABC giantPack =
        { kept := [], deleted := [], warned := true } := by
  have hlen : 5000 < giantPack.length := by
    unfold giantPack
    rw [List.length_replicate]
    omega
  exact ⟨hlen, giant_pack_skipped simABC giantPack hlen⟩

/-- C8: the deletion writer drains the whole channel into a set before
writing, so every id is attempted at most once; all inserts happen in one
transaction; constraint violations are never logged; other errors are
logged while every remaining id is still attempted. -/
theorem deletion_writer_behaviour (outcome : Int → InsertOutcome)
    (ids : List Int) :
    (writerRun outcome ids).attempted.Nodup ∧
    (∀ i, i ∈ (writerRun outcome ids).attempted ↔ i ∈ ids) ∧
    (writerRun outcome ids).logged =
      (writerRun outcome ids).attempted.filter
        (fun i => (outcome i).isLoggedError) ∧
    (∀ i, outcome i = InsertOutcome.constraintViolation →
      i ∉ (writerRun outcome ids).logged) ∧
    (writerRun outcome ids).transactions = 1 := by
  rw [writerRun_eq]
  refine ⟨List.nodup_dedup ids, fun i => List.mem_dedup, rfl, ?_, rfl⟩
  intro i h hmem
  have hlog := List.of_mem_filter hmem
  rw [h] at hlog
  cases hlog

theorem deletion_writer_behaviour_witness :
    (writerRun outcomeW [4, 4, 7, 9]).attempted.Nodup ∧
    (∀ i, i ∈ (writerRun outcomeW [4, 4, 7, 9]).attempted ↔
      i ∈ ([4, 4, 7, 9] : List Int)) ∧
    (writerRun outcomeW [4, 4, 7, 9]).logged =
      (writerRun outcomeW [4, 4, 7, 9]).attempted.filter
        (fun i => (outcomeW i).isLoggedError) ∧
    (∀ i, outcomeW i = InsertOutcome.constraintViolation →
      i ∉ (writerRun outcomeW [4, 4, 7, 9]).logged) ∧
    (writerRun outcomeW [4, 4, 7, 9]).transactions = 1 :=
  deletion_writer_behaviour outcomeW [4, 4, 7, 9]

/-- C10: the pack comparator is a total function with a deterministic NaN
fallback: the `(rank, id)` tuples are incomparable exactly when a rank is
NaN, in which case the comparator is the reversed id comparison; it is
always antisymmetric under argument swap; and two NaN-ranked items are
ordered by descending id. -/
theorem comparator_nan_fallback (x y : HashIterItem) :
    (pairPartialCmp x.rank x.id y.rank y.id = none ↔
      x.rank = none ∨ y.rank = none) ∧
    (pairPartialCmp x.rank x.id y.rank y.id = none →
      itemCmp x y = (intCmp x.id y.id).swap) ∧
    itemCmp y x = (itemCmp x y).swap ∧
    (x.rank = none → y.rank = none →
      (itemCmp x y = Ordering.lt ↔ y.id < x.id)) := by
  refine ⟨pairPartialCmp_none_iff _ _ _ _, itemCmp_of_none x y,
    itemCmp_swap x y, ?_⟩
  intro hx _
  have hnone : pairPartialCmp x.rank x.id y.rank y.id = none :=
    (pairPartialCmp_none_iff _ _ _ _).mpr (Or.inl hx)
  rw [itemCmp_of_none x y hnone]
  unfold intCmp
  rcases lt_trichotomy x.id y.id with h | h | h
  · rw [if_pos h]
    exact iff_of_false (by decide) (by omega)
  · rw [if_neg (show ¬x.id < y.id by omega), if_pos h]
    exact iff_of_false (by decide) (by omega)
  · rw [if_neg (show ¬x.id < y.id by omega),
      if_neg (show ¬x.id = y.id by omega)]
    exact iff_of_true rfl h

/-- C2: under a symmetric similarity and distinct store ids, two distinct
surviving addresses that are similar can never both belong to a pack that
was processed (size between 2 and 5000): one of the two would have been
kept and the other deleted. Concluded as: they share no hash whose pack was
processed. -/
theorem similar_survivors_share_no_processed_pack
    (S : Address → Address → Bool) (hsym : ∀ a b, S a b = S b a)
    (store : List AddressRecord)
    (hids : (store.map AddressRecord.id).Nodup)
    (a b : AddressRecord) (ha : a ∈ store) (hb : b ∈ store)
    (hne : a.id ≠ b.id)
    (hsa : a.id ∉ compute_duplicates S store)
    (hsb : b.id ∉ compute_duplicates S store)
    (hS : S a.address b.address = true)
    (h : Int) (h2 : 2 ≤ (packFor store h).length)
    (h5 : (packFor store h).length ≤ 5000) :
    ¬(h ∈ a.hashes ∧ h ∈ b.hashes) := by
  rintro ⟨hha, hhb⟩
  have hitemA : itemOf h a ∈ packFor store h := itemOf_mem_packFor ha hha
  have hitemB : itemOf h b ∈ packFor store h := itemOf_mem_packFor hb hhb
  have hall : h ∈ allHashes store := mem_allHashes.mpr ⟨a, ha, hha⟩
  have hdelsub : ∀ i ∈ (resolvePack S (packFor store h)).deleted,
      i ∈ compute_duplicates S store := fun i hi =>
    mem_compute_duplicates.mpr ⟨h, hall, h2, hi⟩
  have hKa : itemOf h a ∈ (resolvePack S (packFor store h)).kept := by
    rcases resolvePack_mem_or S _ h2 h5 _ hitemA with hk | hd
    · exact hk
    · exact absurd (hdelsub _ hd) hsa
  have hKb : itemOf h b ∈ (resolvePack S (packFor store h)).kept := by
    rcases resolvePack_mem_or S _ h2 h5 _ hitemB with hk | hd
    · exact hk
    · exact absurd (hdelsub _ hd) hsb
  have hpw := resolvePack_kept_pairwise S (packFor store h)
  have hsymrel : Symmetric (keptRel S) := by
    intro x y hxy
    unfold keptRel at *
    rw [hsym]
    exact hxy
  have hneq : itemOf h a ≠ itemOf h b := fun hEq =>
    hne (congrArg HashIterItem.id hEq)
  have hfact := List.Pairwise.forall hsymrel hpw hKa hKb hneq
  unfold keptRel at hfact
  simp only [itemOf] at hfact
  rw [hsym] at hfact
  rw [hS] at hfact
  cases hfact

theorem streetEq_symm : ∀ x y, streetEq x y = streetEq y x := fun _ _ =>
  decide_eq_decide.mpr eq_comm

theorem similar_survivors_share_no_processed_pack_witness :
    ¬(3 ∈ recW1.hashes ∧ 3 ∈ recW2.hashes) :=
  similar_survivors_share_no_processed_pack streetEq streetEq_symm storeW
    (by decide) recW1 recW2 (by decide) (by decide) (by decide) (by decide)
    (by decide) (by decide) 3 (by decide) (by decide)

/-! ### C3: the dominated-by-a-survivor claim -/

/-- C3 (counterexample): in the store `{X, Y, Z}` with `S(X,Y)`, `S(Y,Z)`
but not `S(X,Z)`, hash packs `{X,Y}` and `{Y,Z}`, `X` is deleted because of
`Y`, but `Y` is itself deleted because of `Z`; the only surviving address
`Z` is not similar to `X`, so no surviving address similar to `X` exists at
all, refuting the claim. -/
theorem deleted_dominated_by_survivor_counterexample :
    recX.id ∈ compute_duplicates simABC storeXYZ ∧
      runOnce simABC storeXYZ = [recZ] ∧
      simABC recX.address recZ.address = false := by
  decide

/-- C3 (amended): within a single processed pack (size at most 5000,
pairwise-distinct ids, no NaN rank), every deleted item is similar to some
item kept in that same pack whose `(rank, id)` is lexicographically
greater; that kept witness need not survive globally, since another pack
may delete it. -/
theorem deleted_dominated_by_kept_in_pack
    (S : Address → Address → Bool) (pack : List HashIterItem)
    (h5 : pack.length ≤ 5000)
    (hids : (pack.map HashIterItem.id).Nodup)
    (hranks : ∀ x ∈ pack, x.rank.isSome) :
    ∀ i ∈ (resolvePack S pack).deleted,
      ∃ d s, d ∈ pack ∧ d.id = i ∧
        s ∈ (resolvePack S pack).kept ∧
        S d.address s.address = true ∧ strictAbove s d := by
  intro i hi
  cases heq : sortPack pack with
  | nil =>
      rw [resolvePack_eq_of_nil S pack h5 heq] at hi
      cases hi
  | cons first rest =>
      rw [resolvePack_eq_of_cons S pack h5 first rest heq] at hi ⊢
      have hmemPack : ∀ x ∈ first :: rest, x ∈ pack := by
        intro x hx
        exact mem_sortPack.mp (heq ▸ hx)
      have hsorted : (first :: rest).Pairwise itemLE :=
        heq ▸ sortPack_pairwise_of_some pack hranks
      have hnodids : ((first :: rest).map HashIterItem.id).Nodup := by
        rw [← heq]
        exact (((sortPack_perm pack).map HashIterItem.id).nodup_iff).mpr hids
      have hG : (first :: rest).Pairwise strictAbove := by
        have h1 : (first :: rest).Pairwise fun x y => x.id ≠ y.id :=
          List.pairwise_map.mp hnodids
        refine (hsorted.and h1).imp_of_mem ?_
        intro x y hx hy hxy
        exact strictAbove_of_itemLE (hranks x (hmemPack x hx))
          (hranks y (hmemPack y hy)) hxy.1 hxy.2
      have hinv : ∀ k ∈ [first], ∀ t ∈ rest, strictAbove k t := by
        intro k hk t ht
        rcases List.mem_singleton.mp hk with rfl
        exact (List.pairwise_cons.mp hG).1 t ht
      rcases dedupeLoop_deleted_reason S strictAbove rest [first] [] hinv
          (List.pairwise_cons.mp hG).2 i hi with hnil | ⟨x, s, hx, hxi, hs, hSx, hGsx⟩
      · cases hnil
      · exact ⟨x, s, hmemPack x (List.mem_cons_of_mem _ hx), hxi, hs, hSx,
          hGsx⟩

theorem deleted_dominated_by_kept_in_pack_witness :
    itemB.id ∈ (resolvePack simABC packABC).deleted ∧
      ∃ d s, d ∈ packABC ∧ d.id = itemB.id ∧
        s ∈ (resolvePack simABC packABC).kept ∧
        simABC d.address s.address = true ∧ strictAbove s d :=
  ⟨by decide,
    deleted_dominated_by_kept_in_pack simABC packABC (by decide) (by decide)
      (by decide) itemB.id (by decide)⟩

/-- C9: an accepted address whose hash set is empty triggers a worker
warning but is still forwarded downstream with its (empty) hash list; a
stored record with no hash rows belongs to no pack, is never marked for
deletion, and survives the deletion pass. -/
theorem unhashable_address_behaviour
    (filt : Address → Bool) (ranking : Address → Option ℚ)
    (hashFn : Address → List Int) (addrs : List Address) (a : Address)
    (hmem : a ∈ addrs) (hf : filt a = true) (hempty : hashFn a = [])
    (S : Address → Address → Bool) (store : List AddressRecord)
    (hids : (store.map AddressRecord.id).Nodup)
    (r : AddressRecord) (hr : r ∈ store) (hrh : r.hashes = []) :
    ((a, ranking a, ([] : List Int)) ∈
        (hashWorkerRun filt ranking hashFn addrs).sent ∧
      1 ≤ (hashWorkerRun filt ranking hashFn addrs).warnings) ∧
    (∀ h, itemOf h r ∉ packFor store h) ∧
    r.id ∉ compute_duplicates S store ∧
    r ∈ runOnce S store := by
  have hnodel : r.id ∉ compute_duplicates S store := by
    intro hdel
    obtain ⟨r', hr', hid, hne⟩ := compute_duplicates_from_store hdel
    have : r' = r := id_inj_of_nodup hids hr' hr hid
    exact hne (this ▸ hrh)
  refine ⟨⟨?_, ?_⟩, ?_, hnodel, ?_⟩
  · rw [hashWorkerRun_eq]
    have hfil : a ∈ addrs.filter filt := List.mem_filter.mpr ⟨hmem, hf⟩
    have := List.mem_map_of_mem (fun a => (a, ranking a, hashFn a)) hfil
    simpa [hempty] using this
  · rw [hashWorkerRun_eq]
    have hfil : a ∈ addrs.filter filt := List.mem_filter.mpr ⟨hmem, hf⟩
    have : 0 < (addrs.filter filt).countP fun a => (hashFn a).isEmpty :=
      List.countP_pos_iff.mpr ⟨a, hfil, by simp [hempty]⟩
    exact this
  · intro h hmem'
    obtain ⟨r', hr', hh', hEq⟩ := mem_packFor.mp hmem'
    have hid : r.id = r'.id := congrArg HashIterItem.id hEq
    have : r = r' := id_inj_of_nodup hids hr hr' hid
    subst this
    rw [hrh] at hh'
    cases hh'
  · exact mem_apply_deletions.mpr ⟨hr, hnodel⟩

theorem unhashable_address_behaviour_witness :
    ((addrA, some (0 : ℚ), ([] : List Int)) ∈
        (hashWorkerRun (fun _ => true) (fun _ => some 0) (fun _ => [])
          addrsE).sent ∧
      1 ≤ (hashWorkerRun (fun _ => true) (fun _ => some 0) (fun _ => [])
          addrsE).warnings) ∧
    (∀ h, itemOf h recE ∉ packFor storeE h) ∧
    recE.id ∉ compute_duplicates streetEq storeE ∧
    recE ∈ runOnce streetEq storeE :=
  unhashable_address_behaviour (fun _ => true) (fun _ => some 0)
    (fun _ => []) addrsE addrA (by decide) rfl rfl streetEq storeE
    (by decide) recE (by decide) rfl

/-- C7 (amended): when no pack of the first run exceeds 5000 elements, the
similarity is symmetric and store ids are distinct, a second collision
resolution marks nothing: survivors sharing a processed pack are pairwise
dissimilar, so every second-run pack resolves without deletions and the
addresses table is unchanged. -/
theorem collision_resolution_idempotent_without_giant_packs
    (S : Address → Address → Bool) (hsym : ∀ a b, S a b = S b a)
    (store : List AddressRecord)
    (hids : (store.map AddressRecord.id).Nodup)
    (hsmall : ∀ h, (packFor store h).length ≤ 5000) :
    compute_duplicates S (runOnce S store) = [] ∧
      runOnce S (runOnce S store) = runOnce S store := by
  have hsub : ∀ r ∈ runOnce S store, r ∈ store := fun r hr =>
    (mem_apply_deletions.mp hr).1
  have hsurv : ∀ r ∈ runOnce S store, r.id ∉ compute_duplicates S store :=
    fun r hr => (mem_apply_deletions.mp hr).2
  have hids' : ((runOnce S store).map AddressRecord.id).Nodup := by
    refine hids.sublist ?_
    exact (List.filter_sublist store).map AddressRecord.id
  have hpacksub : ∀ h,
      List.Sublist (packFor (runOnce S store) h) (packFor store h) := by
    intro h
    unfold packFor runOnce apply_deletions
    exact ((List.filter_sublist store).filter _).map _
  have hkey : ∀ h, 2 ≤ (packFor (runOnce S store) h).length →
      (resolvePack S (packFor (runOnce S store) h)).deleted = [] := by
    intro h h2
    have h2P : 2 ≤ (packFor store h).length :=
      le_trans h2 (hpacksub h).length_le
    have h5P : (packFor store h).length ≤ 5000 := hsmall h
    have hpackmem : ∀ x ∈ packFor (runOnce S store) h, x ∈ packFor store h :=
      fun x hx => (hpacksub h).mem hx
    have hallH : h ∈ allHashes store := by
      obtain ⟨x, hx⟩ := List.exists_mem_of_length_pos (by omega :
        0 < (packFor (runOnce S store) h).length)
      obtain ⟨r, hr, hh, _⟩ := mem_packFor.mp hx
      exact mem_allHashes.mpr ⟨r, hsub r hr, hh⟩
    have hkept : ∀ x ∈ packFor (runOnce S store) h,
        x ∈ (resolvePack S (packFor store h)).kept := by
      intro x hx
      obtain ⟨r, hr, hh, rfl⟩ := mem_packFor.mp hx
      rcases resolvePack_mem_or S (packFor store h) h2P h5P _
          (hpackmem _ hx) with hk | hd
      · exact hk
      · exact absurd (mem_compute_duplicates.mpr ⟨h, hallH, h2P, hd⟩)
          (hsurv r hr)
    have hidsp : ((packFor (runOnce S store) h).map HashIterItem.id).Nodup :=
      packFor_ids_nodup (runOnce S store) h hids'
    have hnodup : (packFor (runOnce S store) h).Nodup :=
      List.Nodup.of_map _ hidsp
    refine resolvePack_no_del S _ hnodup ?_
    intro x hx y hy hxy
    have hsymrel : Symmetric (keptRel S) := by
      intro u v huv
      unfold keptRel at *
      rw [hsym]
      exact huv
    have hfact := List.Pairwise.forall hsymrel
      (resolvePack_kept_pairwise S (packFor store h)) (hkept y hy)
      (hkept x hx) (Ne.symm hxy)
    unfold keptRel at hfact
    exact hfact
  have hcd : compute_duplicates S (runOnce S store) = [] := by
    unfold compute_duplicates
    rw [List.flatMap_eq_nil_iff]
    intro h hh
    by_cases h2 : 2 ≤ (packFor (runOnce S store) h).length
    · rw [if_pos h2]
      exact hkey h h2
    · rw [if_neg h2]
  refine ⟨hcd, ?_⟩
  show apply_deletions (runOnce S store) (compute_duplicates S
    (runOnce S store)) = runOnce S store
  rw [hcd]
  unfold apply_deletions
  rw [List.filter_eq_self]
  intro r _
  simp

theorem flatten_replicate (n : ℕ) (a : Int) :
    (List.replicate n [a]).flatten = List.replicate n a := by
  induction n with
  | zero => rfl
  | succ k ih => simp [List.replicate_succ, ih]

theorem dedup_replicate_append (n : ℕ) (a : Int) (l : List Int)
    (h : a ∈ l) : (List.replicate n a ++ l).dedup = l.dedup := by
  induction n with
  | zero => rfl
  | succ k ih =>
      rw [List.replicate_succ, List.cons_append,
        List.dedup_cons_of_mem (by
          rw [List.mem_append]
          exact Or.inr h)]
      exact ih

theorem allHashes_bigStore : allHashes bigStore = [1, 2] := by
  have hmap : bigStore.map AddressRecord.hashes =
      List.replicate 5000 [1] ++ [[1, 2]] ++ [[2]] := by
    unfold bigStore
    rw [List.map_append, List.map_map]
    have h1 : AddressRecord.hashes ∘ bigRec =
        fun i => if i = 5000 then [1, 2] else ([1] : List Int) := rfl
    rw [h1, List.range_succ, List.map_append]
    have h2 : ((List.range 5000).map
        fun i => if i = 5000 then [1, 2] else ([1] : List Int)) =
        List.replicate 5000 [1] := by
      rw [List.eq_replicate_iff]
      refine ⟨by simp, ?_⟩
      intro b hb
      obtain ⟨i, hi, rfl⟩ := List.mem_map.mp hb
      have : i < 5000 := List.mem_range.mp hi
      rw [if_neg (by omega)]
    have h5 : (([5000] : List ℕ).map
        fun i => if i = 5000 then [1, 2] else ([1] : List Int)) =
        [[1, 2]] := by
      decide
    have h6 : ([wRec].map AddressRecord.hashes) = [[2]] := rfl
    rw [h2, h5, h6]
  unfold allHashes
  rw [hmap, List.flatten_append, List.flatten_append, flatten_replicate]
  simp only [List.flatten_cons, List.flatten_nil, List.append_nil]
  rw [List.append_assoc,
    dedup_replicate_append 5000 1 ([1, 2] ++ [2]) (by decide)]
  decide

theorem packFor_bigStore_1 :
    packFor bigStore 1 = ((List.range 5001).map bigRec).map (itemOf 1) := by
  unfold packFor bigStore
  rw [List.filter_append]
  have hall : ((List.range 5001).map bigRec).filter
      (fun r => 1 ∈ r.hashes) = (List.range 5001).map bigRec := by
    rw [List.filter_eq_self]
    intro r hrm
    obtain ⟨i, _, rfl⟩ := List.mem_map.mp hrm
    by_cases h : i = 5000
    · subst h
      simp [bigRec]
    · simp [bigRec, h]
  have hw : ([wRec].filter fun r => 1 ∈ r.hashes) = [] := by decide
  rw [hall, hw, List.append_nil]

theorem packFor_bigStore_1_length : (packFor bigStore 1).length = 5001 := by
  rw [packFor_bigStore_1]
  simp

theorem packFor_bigStore_2 :
    packFor bigStore 2 = [itemOf 2 (bigRec 5000), itemOf 2 wRec] := by
  unfold packFor bigStore
  rw [List.filter_append]
  have hr : ((List.range 5001).map bigRec).filter
      (fun r => 2 ∈ r.hashes) = [bigRec 5000] := by
    rw [List.range_succ, List.map_append, List.filter_append]
    have hnil : ((List.range 5000).map bigRec).filter
        (fun r => 2 ∈ r.hashes) = [] := by
      rw [List.filter_eq_nil_iff]
      intro r hrm
      obtain ⟨i, him, rfl⟩ := List.mem_map.mp hrm
      have : i < 5000 := List.mem_range.mp him
      simp [bigRec, show ¬i = 5000 by omega]
    rw [hnil, List.nil_append]
    simp [bigRec]
  have hw : [wRec].filter (fun r => 2 ∈ r.hashes) = [wRec] := by decide
  rw [hr, hw]
  rfl

theorem resolvePack_bigStore_2 :
    (resolvePack Sconst (packFor bigStore 2)).deleted = [1] := by
  rw [packFor_bigStore_2]
  have hx : (itemOf 2 (bigRec 5000)).rank =
      some (5001 - ((5000 : ℕ) : ℚ)) := rfl
  have hw : (itemOf 2 wRec).rank = some 9000 := rfl
  have hcast : ((5000 : ℕ) : ℚ) = 5000 := by norm_num
  have hnle : ¬itemLE (itemOf 2 (bigRec 5000)) (itemOf 2 wRec) := by
    rw [itemLE_some_iff hx hw]
    rintro (hlt | ⟨heq, _⟩)
    · rw [hcast] at hlt
      norm_num at hlt
    · rw [hcast] at heq
      norm_num at heq
  have hsort : sortPack [itemOf 2 (bigRec 5000), itemOf 2 wRec] =
      [itemOf 2 wRec, itemOf 2 (bigRec 5000)] := by
    unfold sortPack
    simp only [List.insertionSort, List.orderedInsert]
    rw [if_neg hnle]
  rw [resolvePack_eq_of_cons Sconst _ (by norm_num) _ _ hsort]
  rw [dedupeLoop_all_dup Sconst _ _ []
    (fun t _ => ⟨itemOf 2 wRec, List.mem_singleton.mpr rfl, rfl⟩)]
  simp only [List.nil_append, List.map_cons, List.map_nil]
  decide

theorem compute_duplicates_bigStore :
    compute_duplicates Sconst bigStore = [1] := by
  unfold compute_duplicates
  rw [allHashes_bigStore, List.flatMap_cons, List.flatMap_cons,
    List.flatMap_nil]
  rw [if_pos (show 2 ≤ (packFor bigStore 1).length by
    rw [packFor_bigStore_1_length]; omega)]
  rw [resolvePack_eq_of_gt Sconst _ (by rw [packFor_bigStore_1_length]; omega)]
  rw [if_pos (show 2 ≤ (packFor bigStore 2).length by
    rw [packFor_bigStore_2]; decide)]
  rw [resolvePack_bigStore_2]
  rfl

theorem runOnce_bigStore :
    runOnce Sconst bigStore = (List.range 5000).map bigRec ++ [wRec] := by
  unfold runOnce apply_deletions
  rw [compute_duplicates_bigStore]
  unfold bigStore
  rw [List.range_succ, List.map_append, List.append_assoc,
    List.filter_append]
  have h1 : ((List.range 5000).map bigRec).filter
      (fun r => r.id ∉ [1]) = (List.range 5000).map bigRec := by
    rw [List.filter_eq_self]
    intro r hrm
    obtain ⟨i, him, rfl⟩ := List.mem_map.mp hrm
    have hi : i < 5000 := List.mem_range.mp him
    have hne : (bigRec i).id ≠ 1 := by
      simp only [bigRec]
      omega
    simp [hne]
  have h4 : ((([5000] : List ℕ).map bigRec ++ [wRec]).filter
      fun r => r.id ∉ [1]) = [wRec] := by
    decide
  rw [h1, h4]

theorem packFor_after1_1 :
    packFor (runOnce Sconst bigStore) 1 =
      ((List.range 5000).map bigRec).map (itemOf 1) := by
  rw [runOnce_bigStore]
  unfold packFor
  rw [List.filter_append]
  have hall : ((List.range 5000).map bigRec).filter
      (fun r => 1 ∈ r.hashes) = (List.range 5000).map bigRec := by
    rw [List.filter_eq_self]
    intro r hrm
    obtain ⟨i, him, rfl⟩ := List.mem_map.mp hrm
    have : i < 5000 := List.mem_range.mp him
    simp [bigRec, show ¬i = 5000 by omega]
  have hw : ([wRec].filter fun r => 1 ∈ r.hashes) = [] := by decide
  rw [hall, hw, List.append_nil]

theorem pack_after1_sorted :
    (((List.range 5000).map bigRec).map (itemOf 1)).Pairwise itemLE := by
  rw [List.map_map, List.pairwise_map]
  refine (List.pairwise_lt_range 5000).imp_of_mem ?_
  intro i j _ _ hij
  have hri : ((itemOf 1 ∘ bigRec) i).rank = some (5001 - (i : ℚ)) := rfl
  have hrj : ((itemOf 1 ∘ bigRec) j).rank = some (5001 - (j : ℚ)) := rfl
  rw [itemLE_some_iff hri hrj]
  left
  have : (i : ℚ) < (j : ℚ) := by exact_mod_cast hij
  linarith

theorem second_run_deletes :
    (5000 : Int) ∈ compute_duplicates Sconst (runOnce Sconst bigStore) := by
  apply mem_compute_duplicates.mpr
  refine ⟨1, ?_, ?_, ?_⟩
  · apply mem_allHashes.mpr
    refine ⟨bigRec 0, ?_, by simp [bigRec]⟩
    rw [runOnce_bigStore]
    exact List.mem_append_left _
      (List.mem_map_of_mem bigRec (List.mem_range.mpr (by omega)))
  · rw [packFor_after1_1]
    simp
  · rw [packFor_after1_1]
    have hlen : (((List.range 5000).map bigRec).map (itemOf 1)).length =
        5000 := by
      simp
    have hsortEq : sortPack (((List.range 5000).map bigRec).map (itemOf 1)) =
        ((List.range 5000).map bigRec).map (itemOf 1) :=
      List.Sorted.insertionSort_eq pack_after1_sorted
    have hrange : List.range 5000 = 0 :: (List.range 4999).map Nat.succ :=
      List.range_succ_eq_map 4999
    have hL : ((List.range 5000).map bigRec).map (itemOf 1) =
        itemOf 1 (bigRec 0) ::
          ((((List.range 4999).map Nat.succ).map bigRec).map (itemOf 1)) := by
      rw [hrange]
      rfl
    rw [resolvePack_eq_of_cons Sconst _ (by rw [hlen]) _ _
      (by rw [hsortEq, hL])]
    rw [dedupeLoop_all_dup Sconst _ _ []
      (fun t _ => ⟨itemOf 1 (bigRec 0), List.mem_singleton.mpr rfl, rfl⟩)]
    rw [List.nil_append]
    apply List.mem_map.mpr
    refine ⟨itemOf 1 (bigRec 1), ?_, by decide⟩
    apply List.mem_map.mpr
    refine ⟨bigRec 1, ?_, rfl⟩
    apply List.mem_map.mpr
    refine ⟨1, ?_, rfl⟩
    apply List.mem_map.mpr
    exact ⟨0, List.mem_range.mpr (by omega), rfl⟩

/-- C7 (counterexample): in the pathological store of 5001 mutually-similar
records sharing hash 1 (whose pack is skipped for size) plus one
higher-ranked record sharing hash 2 with the lowest of them, the first run
deletes only that lowest record; the second run then sees a pack of exactly
5000 elements, processes it, and deletes 4999 further records — in
particular `bigRec 1` survives the first run but not the second, refuting
idempotence. -/
theorem collision_resolution_not_idempotent_counterexample :
    bigRec 1 ∈ runOnce Sconst bigStore ∧
      bigRec 1 ∉ runOnce Sconst (runOnce Sconst bigStore) := by
  constructor
  · rw [runOnce_bigStore]
    exact List.mem_append_left _
      (List.mem_map_of_mem bigRec (List.mem_range.mpr (by omega)))
  · intro hmem
    have h2 := (mem_apply_deletions.mp hmem).2
    have hid : (bigRec 1).id = (5000 : Int) := by decide
    rw [hid] at h2
    exact h2 second_run_deletes

theorem collision_resolution_idempotent_witness :
    compute_duplicates streetEq (runOnce streetEq storeW) = [] ∧
      runOnce streetEq (runOnce streetEq storeW) = runOnce streetEq storeW :=
  collision_resolution_idempotent_without_giant_packs streetEq streetEq_symm
    storeW (by decide)
    (fun h => le_trans (packFor_length_le storeW h) (by decide))

theorem comparator_nan_fallback_witness :
    (pairPartialCmp itemNaN1.rank itemNaN1.id itemNaN2.rank itemNaN2.id =
        none ↔ itemNaN1.rank = none ∨ itemNaN2.rank = none) ∧
    (pairPartialCmp itemNaN1.rank itemNaN1.id itemNaN2.rank itemNaN2.id =
        none →
      itemCmp itemNaN1 itemNaN2 = (intCmp itemNaN1.id itemNaN2.id).swap) ∧
    itemCmp itemNaN2 itemNaN1 = (itemCmp itemNaN1 itemNaN2).swap ∧
    (itemNaN1.rank = none → itemNaN2.rank = none →
      (itemCmp itemNaN1 itemNaN2 = Ordering.lt ↔
        itemNaN2.id < itemNaN1.id)) :=
  comparator_nan_fallback itemNaN1 itemNaN2
